import Mathlib

/-!
Verification of the benchmark-line parser (`src/lib.rs`).

The embedding works over `List Char`.  The regular expression

    test\s+(?P<name>\S+)\s+...\sbench:\s+(?P<ns>[0-9,]+)\s+ns/iter
    \s+\(\+∕-\s+(?P<variance>[0-9,]+)\)(?:\s+=\s+(?P<throughput>[0-9,]+)\sMB/s)?

(written with the `(?x)` flag in the source, so the literal spaces and the
`# ...` comments inside it are ignored) is embedded as an executable
backtracking matcher with the leftmost-first semantics of the `regex`
crate: earlier starting positions are preferred, greedy pieces try the
longest alternative first, and inside this particular pattern the only
non-forced choice points are the starting position and the length of the
`\s+` run that precedes the three `.` wildcards (every other greedy run is
followed by a character class disjoint from it, so only the maximal run can
ever be extended to a full match).  `\s` is modelled as ASCII whitespace
and `.` as any character other than the line feed, as in the crate's
default mode.
-/

set_option maxHeartbeats 4000000

namespace BenchParser

/-- Whitespace class, modelling the regex class `\s` (ASCII part: space,
horizontal tab, line feed, vertical tab, form feed, carriage return). -/
def isWs (c : Char) : Bool :=
  decide (c ∈ [' ', '\t', '\n', '\x0b', '\x0c', '\r'])

/-- The character class `[0-9,]` used by the three numeric capture groups. -/
def numChar (c : Char) : Bool :=
  c.isDigit || c == ','

/-- The named capture groups exposed by a successful match of the pattern. -/
structure Caps where
  name : List Char
  ns : List Char
  variance : List Char
  throughput : Option (List Char)
deriving DecidableEq

def testLit : List Char := "test".toList
def benchLit : List Char := "bench:".toList
def nsIterLit : List Char := "ns/iter".toList
def openLit : List Char := "(+/-".toList
def closeLit : List Char := ")".toList
def eqLit : List Char := "=".toList
def mbsLit : List Char := "MB/s".toList
def dotsLit : List Char := "...".toList

/-- Consume a literal token at the front of the input, returning the rest. -/
def lit : List Char → List Char → Option (List Char)
  | [], rest => some rest
  | c :: cs, d :: ds => if d == c then lit cs ds else none
  | _ :: _, [] => none

/-- Greedy `p+`: requires at least one `p`-character and consumes the maximal
run, returning the run and the rest.  In this pattern every `\s+`, `\S+` and
`[0-9,]+` is followed by a character outside its own class, so the maximal
run is the only length that can start a successful continuation and no
backtracking into these runs is needed. -/
def spanPlus (p : Char → Bool) : List Char → Option (List Char × List Char)
  | [] => none
  | c :: cs => if p c then some (c :: cs.takeWhile p, cs.dropWhile p) else none

/-- The optional trailing group `(?:\s+=\s+(?P<throughput>[0-9,]+)\sMB/s)?`:
on success it yields the `throughput` capture.  Note the single `\s` between
the number and `MB/s`. -/
def matchThroughputGroup (l : List Char) : Option (List Char) :=
  match spanPlus isWs l with
  | none => none
  | some (_, r1) =>
    match lit eqLit r1 with
    | none => none
    | some r2 =>
      match spanPlus isWs r2 with
      | none => none
      | some (_, r3) =>
        match spanPlus numChar r3 with
        | none => none
        | some (tpCap, r4) =>
          match r4 with
          | [] => none
          | c :: r5 =>
            if isWs c then
              match lit mbsLit r5 with
              | none => none
              | some _ => some tpCap
            else none

/-- The part of the pattern from `bench:` on:
`bench:\s+(?P<ns>[0-9,]+)\s+ns/iter\s+\(\+∕-\s+(?P<variance>[0-9,]+)\)`
followed by the optional throughput group. -/
def matchFromBench (nm : List Char) (l : List Char) : Option Caps :=
  match lit benchLit l with
  | none => none
  | some r1 =>
    match spanPlus isWs r1 with
    | none => none
    | some (_, r2) =>
      match spanPlus numChar r2 with
      | none => none
      | some (nsCap, r3) =>
        match spanPlus isWs r3 with
        | none => none
        | some (_, r4) =>
          match lit nsIterLit r4 with
          | none => none
          | some r5 =>
            match spanPlus isWs r5 with
            | none => none
            | some (_, r6) =>
              match lit openLit r6 with
              | none => none
              | some r7 =>
                match spanPlus isWs r7 with
                | none => none
                | some (_, r8) =>
                  match spanPlus numChar r8 with
                  | none => none
                  | some (varCap, r9) =>
                    match lit closeLit r9 with
                    | none => none
                    | some r10 =>
                      some ⟨nm, nsCap, varCap, matchThroughputGroup r10⟩

/-- The `...\sbench:` part of the pattern at a fixed position: three `.`
wildcards (any character except a line feed), exactly one `\s`, then the
rest of the pattern. -/
def markerAt (nm : List Char) : List Char → Option Caps
  | c1 :: c2 :: c3 :: w :: rest =>
    if c1 != '\n' && c2 != '\n' && c3 != '\n' && isWs w then
      matchFromBench nm rest
    else none
  | _ => none

/-- Backtracking over the length of the `\s+` run before the three `.`
wildcards: greedy, so lengths are tried from `n` down to `1`.  The caller
passes the length of the maximal whitespace run of `l`, so every tried
prefix consists of whitespace. -/
def tryMarker (nm : List Char) : Nat → List Char → Option Caps
  | 0, _ => none
  | Nat.succ j, l =>
    match markerAt nm (l.drop (j + 1)) with
    | some caps => some caps
    | none => tryMarker nm j l

/-- Attempt to match the whole pattern at the start of `l`. -/
def matchAt (l : List Char) : Option Caps :=
  match lit testLit l with
  | none => none
  | some r1 =>
    match spanPlus isWs r1 with
    | none => none
    | some (_, r2) =>
      match spanPlus (fun c => !isWs c) r2 with
      | none => none
      | some (nm, r3) => tryMarker nm ((r3.takeWhile isWs).length) r3

/-- `Regex::captures`: unanchored search, returning the captures of the
leftmost match.  This is the embedding of `get_benchmark_regex()` applied
to a line. -/
def regexSearch : List Char → Option Caps
  | [] => none
  | c :: rest =>
    match matchAt (c :: rest) with
    | some caps => some caps
    | none => regexSearch rest

/-- `drop_commas`: drops all commas in a string (`src/lib.rs`, line 102). -/
def drop_commas (s : List Char) : List Char :=
  s.filter (fun c => c != ',')

/-- The accumulator loop of `u64::from_str` over the digit characters. -/
def digitsToNat (s : List Char) : Nat :=
  s.foldl (fun a c => 10 * a + (c.toNat - 48)) 0

/-- `str::parse::<u64>()`: accepts an optional leading `+`, then one or more
ASCII digits, and fails on overflow of the 64-bit range. -/
def u64FromStr (s : List Char) : Option Nat :=
  let t := if s.head? == some '+' then s.tail else s
  if !t.isEmpty && t.all Char.isDigit then
    if digitsToNat t < 2 ^ 64 then some (digitsToNat t) else none
  else none

/-- `parse_commas`: drops all commas and parses as `u64`
(`src/lib.rs`, line 97). -/
def parse_commas (s : List Char) : Option Nat :=
  u64FromStr (drop_commas s)

/-- `str::rsplit_once(sep)` for a one-character pattern: splits at the last
occurrence of `sep`, returning the parts before and after it. -/
def rsplitOnce (sep : Char) : List Char → Option (List Char × List Char)
  | [] => none
  | c :: cs =>
    match rsplitOnce sep cs with
    | some pr => some (c :: pr.1, pr.2)
    | none => if c == sep then some ([], cs) else none

/-- The shortname computation of `Benchmark::from_str`:
`name.rsplit_once(':').map(|el| el.1).unwrap_or(&name)`. -/
def shortnameOf (n : List Char) : List Char :=
  match rsplitOnce ':' n with
  | some pr => pr.2
  | none => n

/-- All extractable data from a single micro-benchmark (`struct Benchmark`). -/
structure Benchmark where
  name : List Char
  shortname : List Char
  ns : Nat
  variance : Nat
  throughput : Option Nat
deriving DecidableEq

/-- `Benchmark::from_str` (`src/lib.rs`, lines 60-94): match the regex,
parse `ns` and `variance` (failure of either discards the line), parse
`throughput` if captured (failure degrades the field to `none`), and derive
the shortname. -/
def benchmarkFromStr (line : List Char) : Option Benchmark :=
  match regexSearch line with
  | none => none
  | some caps =>
    match parse_commas caps.ns with
    | none => none
    | some ns =>
      match parse_commas caps.variance with
      | none => none
      | some variance =>
        some ⟨caps.name, shortnameOf caps.name, ns, variance,
              caps.throughput.bind parse_commas⟩

/-- `PartialEq for Benchmark`: equality compares only the `name` field. -/
def benchEq (a b : Benchmark) : Bool :=
  a.name == b.name

/-- Rust's lexicographic `partial_cmp` on strings (byte order coincides with
code-point order under UTF-8), which for strings never returns `None`. -/
def strCmpOpt : List Char → List Char → Option Ordering
  | [], [] => some Ordering.eq
  | [], _ :: _ => some Ordering.lt
  | _ :: _, [] => some Ordering.gt
  | a :: as, b :: bs =>
    if a.toNat < b.toNat then some Ordering.lt
    else if b.toNat < a.toNat then some Ordering.gt
    else strCmpOpt as bs

/-- `PartialOrd for Benchmark`: `self.name.partial_cmp(&other.name)`. -/
def benchCmpOpt (a b : Benchmark) : Option Ordering :=
  strCmpOpt a.name b.name

/-- `Ord for Benchmark`: `self.partial_cmp(other).unwrap()`.  The `unwrap`
panic branch is modelled by the default; it is proved unreachable. -/
def benchCmp (a b : Benchmark) : Ordering :=
  (benchCmpOpt a b).getD Ordering.eq

/-- Reference definition: plain lexicographic comparison of two character
lists by code point. -/
def lexCompare : List Char → List Char → Ordering
  | [], [] => Ordering.eq
  | [], _ :: _ => Ordering.lt
  | _ :: _, [] => Ordering.gt
  | a :: as, b :: bs =>
    if a.toNat = b.toNat then lexCompare as bs
    else if a.toNat < b.toNat then Ordering.lt else Ordering.gt

/-- `parse_lines` (`src/lib.rs`, lines 107-116): iterate over the stream of
line read results; a read error aborts the whole batch via `?`; lines whose
parse fails are skipped; parsed benchmarks are collected in order. -/
def parse_lines {ε : Type} : List (Except ε (List Char)) → Except ε (List Benchmark)
  | [] => Except.ok []
  | Except.error e :: _ => Except.error e
  | Except.ok line :: rest =>
    match benchmarkFromStr line with
    | some b =>
      match parse_lines rest with
      | Except.ok bs => Except.ok (b :: bs)
      | Except.error e => Except.error e
    | none => parse_lines rest

/-- A possibly empty whitespace run. -/
def WsStar (w : List Char) : Prop :=
  ∀ c ∈ w, isWs c = true

/-- A nonempty whitespace run. -/
def WsRun (w : List Char) : Prop :=
  w ≠ [] ∧ ∀ c ∈ w, isWs c = true

/-- A nonempty run of non-whitespace characters (the `name` capture `\S+`). -/
def TokenRun (w : List Char) : Prop :=
  w ≠ [] ∧ ∀ c ∈ w, isWs c = false

/-- A nonempty run of digits and commas (the numeric captures `[0-9,]+`). -/
def NumRun (w : List Char) : Prop :=
  w ≠ [] ∧ ∀ c ∈ w, numChar c = true

/-- The line grammar exactly as the specification words it: the literal
tokens `test`, `...`, `bench:`, `ns/iter`, `(+∕-`, `)` and the captures in
order, every two consecutive items separated by arbitrary (possibly empty)
whitespace, anywhere in the line.  The optional throughput clause does not
constrain the set of matching lines (a line with it also matches without
it, the tail being arbitrary), so it does not appear in the predicate. -/
def specLineGrammar (l : List Char) : Prop :=
  ∃ pre w1 nm w2 w3 w4 ns w5 w6 w7 vr w8 tail,
    l = pre ++ testLit ++ w1 ++ nm ++ w2 ++ dotsLit ++ w3 ++ benchLit ++ w4 ++
        ns ++ w5 ++ nsIterLit ++ w6 ++ openLit ++ w7 ++ vr ++ w8 ++ closeLit ++ tail ∧
    WsStar w1 ∧ TokenRun nm ∧ WsStar w2 ∧ WsStar w3 ∧ WsStar w4 ∧ NumRun ns ∧
    WsStar w5 ∧ WsStar w6 ∧ WsStar w7 ∧ NumRun vr ∧ WsStar w8

/-- The line grammar the code actually implements, stated declaratively:
literal `test`, whitespace, a nonempty non-whitespace name, whitespace, any
three characters other than a line feed (the `...` of the pattern are
wildcards), exactly one whitespace character, literal `bench:`, whitespace,
digits and commas, whitespace, literal `ns/iter`, whitespace, literal
`(+∕-`, whitespace, digits and commas, then immediately `)`; anywhere in
the line, with arbitrary text before and after.  The optional throughput
clause does not constrain the set of matching lines. -/
def amendedLineGrammar (l : List Char) : Prop :=
  ∃ pre w1 nm w2 m1 m2 m3 w3 w4 ns w5 w6 w7 vr tail,
    l = pre ++ testLit ++ w1 ++ nm ++ w2 ++ [m1, m2, m3] ++ [w3] ++ benchLit ++
        w4 ++ ns ++ w5 ++ nsIterLit ++ w6 ++ openLit ++ w7 ++ vr ++ closeLit ++ tail ∧
    WsRun w1 ∧ TokenRun nm ∧ WsRun w2 ∧
    m1 ≠ '\n' ∧ m2 ≠ '\n' ∧ m3 ≠ '\n' ∧ isWs w3 = true ∧
    WsRun w4 ∧ NumRun ns ∧ WsRun w5 ∧ WsRun w6 ∧ WsRun w7 ∧ NumRun vr

/-- The shortname derivation exactly as the specification words it: split
the name on the last occurrence of the two-character separator `::` and
keep what follows; without a `::`, keep the whole name. -/
def afterLastSep2 : List Char → Option (List Char)
  | [] => none
  | [_] => none
  | c1 :: c2 :: rest =>
    match afterLastSep2 (c2 :: rest) with
    | some r => some r
    | none => if c1 == ':' && c2 == ':' then some rest else none

/-- Shortname as described by the specification (split on the last `::`). -/
def specShortname (n : List Char) : List Char :=
  match afterLastSep2 n with
  | some r => r
  | none => n

/-- Everything after the last `:` of a list (the whole list when it has no
`:`), stated via `reverse` and `takeWhile`. -/
def afterLastColon (n : List Char) : List Char :=
  (n.reverse.takeWhile (fun c => c != ':')).reverse

/-- Base-10 value of a digit string, by recursion on the reversed list. -/
def digitsValAux : List Char → Nat
  | [] => 0
  | d :: rest => (d.toNat - 48) + 10 * digitsValAux rest

/-- Base-10 value of a digit string (most significant digit first). -/
def digitsVal (s : List Char) : Nat :=
  digitsValAux s.reverse

/-- Counterexample line for claim C1: the three characters between the name
and `bench:` are not dots at all, yet the pattern matches. -/
def c1cexline : List Char := "test a zzz bench: 1 ns/iter (+/- 2)".toList

/-- Witness line for the amended claim C1. -/
def c1wline : List Char := "test m ... bench: 3 ns/iter (+/- 4)".toList

/-- Counterexample line for claim C2: the captured name contains a single
`:` and no `::`. -/
def c2cexline : List Char := "test a:b ... bench: 1 ns/iter (+/- 2)".toList

/-- Witness line for claim C3 (commas in every numeric capture). -/
def c3wline : List Char :=
  "test m::a ... bench: 1,2 ns/iter (+/- 3,4) = 5,6 MB/s".toList

/-- The captures of `c3wline`. -/
def c3wcaps : Caps :=
  ⟨"m::a".toList, "1,2".toList, "3,4".toList, some ("5,6".toList)⟩

/-- Witness line for claim C6: the `ns` capture overflows `u64`. -/
def c6wline : List Char :=
  "test a ... bench: 99999999999999999999 ns/iter (+/- 1)".toList

/-- The captures of `c6wline`. -/
def c6wcaps : Caps :=
  ⟨"a".toList, "99999999999999999999".toList, "1".toList, none⟩

/-- Witness line for claim C7: the throughput capture is `","`, which
parses to nothing after the commas are dropped. -/
def c7wline : List Char :=
  "test a ... bench: 1 ns/iter (+/- 2) = , MB/s".toList

/-- The captures of `c7wline`. -/
def c7wcaps : Caps :=
  ⟨"a".toList, "1".toList, "2".toList, some (",".toList)⟩

/-- Counterexample line for claim C8: the name ends in `:`, so the derived
shortname is empty. -/
def c8cexline : List Char := "test x: ... bench: 1 ns/iter (+/- 2)".toList

/-- The benchmark parsed from `c8cexline`. -/
def c8bench : Benchmark :=
  ⟨"x:".toList, [], 1, 2, none⟩

/-! ### Generic list lemmas -/

theorem mem_takeWhile {α : Type} {p : α → Bool} :
    ∀ {l : List α} {x : α}, x ∈ l.takeWhile p → p x = true := by
  intro l
  induction l with
  | nil => intro x hx; simp [List.takeWhile] at hx
  | cons c cs ih =>
    intro x hx
    by_cases hc : p c
    · rw [List.takeWhile_cons_of_pos hc] at hx
      rcases List.mem_cons.mp hx with h | h
      · exact h ▸ hc
      · exact ih h
    · rw [List.takeWhile_cons_of_neg hc] at hx
      simp at hx

theorem takeWhile_append_all {α : Type} {p : α → Bool} :
    ∀ (a b : List α), (∀ c ∈ a, p c = true) →
      (a ++ b).takeWhile p = a ++ b.takeWhile p := by
  intro a b ha
  induction a with
  | nil => simp
  | cons c cs ih =>
    have hc : p c = true := ha c (List.mem_cons_self c cs)
    simp only [List.cons_append, List.takeWhile_cons_of_pos hc]
    rw [ih (fun x hx => ha x (List.mem_cons_of_mem c hx))]

theorem dropWhile_append_all {α : Type} {p : α → Bool} :
    ∀ (a b : List α), (∀ c ∈ a, p c = true) →
      (a ++ b).dropWhile p = b.dropWhile p := by
  intro a b ha
  induction a with
  | nil => simp
  | cons c cs ih =>
    have hc : p c = true := ha c (List.mem_cons_self c cs)
    simp only [List.cons_append, List.dropWhile_cons_of_pos hc]
    exact ih (fun x hx => ha x (List.mem_cons_of_mem c hx))

theorem takeWhile_all {α : Type} {p : α → Bool} (l : List α)
    (h : ∀ c ∈ l, p c = true) : l.takeWhile p = l := by
  have := takeWhile_append_all l [] h
  simpa using this

theorem length_le_takeWhile_append {α : Type} {p : α → Bool} (a b : List α)
    (ha : ∀ c ∈ a, p c = true) :
    a.length ≤ ((a ++ b).takeWhile p).length := by
  rw [takeWhile_append_all a b ha]
  simp

theorem takeWhile_length_le {α : Type} {p : α → Bool} :
    ∀ l : List α, (l.takeWhile p).length ≤ l.length := by
  intro l
  induction l with
  | nil => simp
  | cons c cs ih =>
    by_cases hc : p c
    · rw [List.takeWhile_cons_of_pos hc]
      simpa using ih
    · rw [List.takeWhile_cons_of_neg hc]
      simp

theorem all_take_of_le_takeWhile {α : Type} {p : α → Bool} (l : List α) (j : Nat)
    (hj : j ≤ (l.takeWhile p).length) : ∀ c ∈ l.take j, p c = true := by
  intro c hc
  have hpre : l.take j = (l.takeWhile p).take j := by
    conv_lhs => rw [← List.takeWhile_append_dropWhile (p := p) (l := l)]
    exact List.take_append_of_le_length hj
  rw [hpre] at hc
  exact mem_takeWhile (List.take_subset j _ hc)

/-! ### Lemmas about the small matching combinators -/

theorem lit_self (p r : List Char) : lit p (p ++ r) = some r := by
  induction p with
  | nil => rfl
  | cons c cs ih => simp [lit, ih]

theorem lit_sound : ∀ {p l r : List Char}, lit p l = some r → l = p ++ r := by
  intro p
  induction p with
  | nil => intro l r h; simpa [lit] using h
  | cons c cs ih =>
    intro l r h
    cases l with
    | nil => simp [lit] at h
    | cons d ds =>
      simp only [lit] at h
      by_cases hd : d == c
      · rw [if_pos hd] at h
        have := ih h
        simp [List.cons_append, this, eq_of_beq hd]
      · rw [if_neg hd] at h
        simp at h

theorem spanPlus_sound {p : Char → Bool} {l a r : List Char}
    (h : spanPlus p l = some (a, r)) :
    l = a ++ r ∧ a ≠ [] ∧ (∀ c ∈ a, p c = true) ∧ r = l.dropWhile p := by
  cases l with
  | nil => simp [spanPlus] at h
  | cons c cs =>
    simp only [spanPlus] at h
    by_cases hc : p c
    · rw [if_pos hc] at h
      obtain ⟨ha, hr⟩ := Prod.mk.injEq .. ▸ Option.some.inj h
      subst ha; subst hr
      refine ⟨?_, by simp, ?_, ?_⟩
      · simp [List.takeWhile_append_dropWhile]
      · intro x hx
        rcases List.mem_cons.mp hx with h | h
        · exact h ▸ hc
        · exact mem_takeWhile h
      · simp [List.dropWhile_cons_of_pos hc]
    · rw [if_neg hc] at h
      simp at h

theorem spanPlus_complete {p : Char → Bool} {a : List Char} {c : Char}
    (r : List Char) (ha : ∀ x ∈ a, p x = true) (hne : a ≠ []) (hc : p c = false) :
    spanPlus p (a ++ c :: r) = some (a, c :: r) := by
  cases a with
  | nil => exact absurd rfl hne
  | cons x xs =>
    have hx : p x = true := ha x (List.mem_cons_self x xs)
    have hxs : ∀ y ∈ xs, p y = true := fun y hy => ha y (List.mem_cons_of_mem x hy)
    simp only [List.cons_append, spanPlus, if_pos hx]
    rw [takeWhile_append_all xs (c :: r) hxs, dropWhile_append_all xs (c :: r) hxs]
    rw [List.takeWhile_cons_of_neg (by simp [hc]), List.dropWhile_cons_of_neg (by simp [hc])]
    simp

/-! ### Character class facts -/

theorem numChar_of_isWs {c : Char} (h : isWs c = true) : numChar c = false := by
  have hm : c ∈ [' ', '\t', '\n', '\x0b', '\x0c', '\r'] := of_decide_eq_true h
  fin_cases hm <;> decide

theorem isWs_of_numChar {c : Char} (h : numChar c = true) : isWs c = false := by
  cases hw : isWs c
  · rfl
  · exact absurd h (by simp [numChar_of_isWs hw])

theorem isDigit_of_numChar_ne_comma {c : Char} (h : numChar c = true)
    (hc : ¬c = ',') : c.isDigit = true := by
  simp only [numChar, Bool.or_eq_true, beq_iff_eq] at h
  rcases h with h | h
  · exact h
  · exact absurd h hc

/-! ### Digit value lemmas -/

theorem digitsValAux_append (xs : List Char) (d : Char) :
    digitsValAux (xs ++ [d]) = digitsValAux xs + (d.toNat - 48) * 10 ^ xs.length := by
  induction xs with
  | nil => simp [digitsValAux]
  | cons x xt ih => simp [digitsValAux, ih]; ring

theorem foldl_digitsVal (l : List Char) : ∀ a : Nat,
    l.foldl (fun a c => 10 * a + (c.toNat - 48)) a = a * 10 ^ l.length + digitsVal l := by
  induction l with
  | nil => intro a; simp [digitsVal, digitsValAux]
  | cons d rest ih =>
    intro a
    have hv : digitsVal (d :: rest) = digitsVal rest + (d.toNat - 48) * 10 ^ rest.length := by
      simp only [digitsVal, List.reverse_cons, digitsValAux_append, List.length_reverse]
    simp only [List.foldl_cons, ih, List.length_cons, hv]
    ring

theorem digitsToNat_eq_digitsVal (l : List Char) : digitsToNat l = digitsVal l := by
  have := foldl_digitsVal l 0
  simpa [digitsToNat] using this

theorem u64FromStr_eq_digitsVal {s : List Char} {n : Nat}
    (hdig : ∀ c ∈ s, c.isDigit = true) (h : u64FromStr s = some n) :
    n = digitsVal s := by
  have ht : (if s.head? == some '+' then s.tail else s) = s := by
    cases s with
    | nil => rfl
    | cons c r =>
      by_cases hc : c = '+'
      · subst hc
        have := hdig '+' (List.mem_cons_self _ _)
        simp at this
      · simp [List.head?, hc]
  rw [u64FromStr] at h
  simp only [ht] at h
  by_cases h1 : (!s.isEmpty && s.all Char.isDigit) = true
  · rw [if_pos h1] at h
    by_cases h2 : digitsToNat s < 2 ^ 64
    · rw [if_pos h2] at h
      rw [← Option.some.inj h, digitsToNat_eq_digitsVal]
    · rw [if_neg h2] at h; simp at h
  · rw [if_neg h1] at h; simp at h

/-! ### The comparison contract (claims C5 and C10) -/

theorem strCmpOpt_eq_lex (l1 : List Char) : ∀ l2 : List Char,
    strCmpOpt l1 l2 = some (lexCompare l1 l2) := by
  induction l1 with
  | nil => intro l2; cases l2 <;> rfl
  | cons a as ih =>
    intro l2
    cases l2 with
    | nil => rfl
    | cons b bs =>
      simp only [strCmpOpt, lexCompare]
      rcases Nat.lt_trichotomy a.toNat b.toNat with h | h | h
      · rw [if_pos h, if_neg (by omega), if_pos h]
      · rw [if_neg (by omega), if_neg (by omega), if_pos h, ih bs]
      · rw [if_neg (by omega), if_pos h, if_neg (by omega), if_neg (by omega)]

/-- Claim C10: for every pair of `Benchmark` values the `partial_cmp` used
inside `Ord::cmp` returns `Some`, so the `unwrap` in `Ord::cmp` is
unreachable and the total comparison never panics. -/
theorem c10_cmp_never_panics : ∀ a b : Benchmark, (benchCmpOpt a b).isSome = true := by
  intro a b
  rw [benchCmpOpt, strCmpOpt_eq_lex]
  rfl

/-- Claim C5: equality and ordering of `Benchmark` values are determined
solely by the `name` field — `benchEq` holds exactly when the names are
equal (the numeric fields are never consulted), and the total comparison
equals the lexicographic comparison of the names. -/
theorem c5_eq_ord_by_name : ∀ a b : Benchmark,
    (benchEq a b = true ↔ a.name = b.name) ∧ benchCmp a b = lexCompare a.name b.name := by
  intro a b
  constructor
  · simp [benchEq]
  · rw [benchCmp, benchCmpOpt, strCmpOpt_eq_lex]
    rfl

/-! ### The batch operation (claims C4 and C9) -/

theorem parse_lines_map_ok {ε : Type} (lines : List (List Char)) :
    @parse_lines ε (lines.map Except.ok) = Except.ok (lines.filterMap benchmarkFromStr) := by
  induction lines with
  | nil => rfl
  | cons l rest ih =>
    simp only [List.map_cons, parse_lines, List.filterMap_cons]
    cases h : benchmarkFromStr l
    · simpa using ih
    · simp [ih]

/-- Claim C4: the batch operation applies `benchmarkFromStr` to each line in
input order, discards non-matching lines, preserves the relative order of
the matches and performs no deduplication — it is exactly `filterMap`, so a
duplicated matching line contributes two records. -/
theorem c4_parseAll_is_filterMap (ε : Type) (lines : List (List Char)) :
    @parse_lines ε (lines.map Except.ok) = Except.ok (lines.filterMap benchmarkFromStr) :=
  parse_lines_map_ok lines

/-- Claim C9: a stream-level read error aborts the whole batch and is
surfaced to the caller, while mere parse failures never abort it: on an
all-`ok` prefix followed by an error the result is that error, and on an
all-`ok` stream the result is always `ok`. -/
theorem c9_stream_error_aborts (ε : Type) :
    (∀ (pre : List (List Char)) (e : ε) (post : List (Except ε (List Char))),
        parse_lines (pre.map Except.ok ++ Except.error e :: post) = Except.error e) ∧
    (∀ lines : List (List Char), ∃ bs, @parse_lines ε (lines.map Except.ok) = Except.ok bs) := by
  constructor
  · intro pre e post
    induction pre with
    | nil => rfl
    | cons l rest ih =>
      simp only [List.map_cons, List.cons_append, parse_lines]
      cases h : benchmarkFromStr l <;> simp [ih]
  · intro lines
    exact ⟨_, parse_lines_map_ok lines⟩

/-! ### Shortname derivation (claims C2 and C8) -/

theorem rsplitOnce_none {sep : Char} :
    ∀ {n : List Char}, rsplitOnce sep n = none → ∀ x ∈ n, x ≠ sep := by
  intro n
  induction n with
  | nil => intro _ x hx; simp at hx
  | cons c cs ih =>
    intro h x hx
    simp only [rsplitOnce] at h
    split at h
    · simp at h
    · rename_i hr
      by_cases hc : c == sep
      · rw [if_pos hc] at h; simp at h
      · rcases List.mem_cons.mp hx with hx | hx
        · subst hx; simpa using hc
        · exact ih hr x hx

theorem rsplitOnce_some {sep : Char} :
    ∀ {n p s : List Char}, rsplitOnce sep n = some (p, s) →
      n = p ++ sep :: s ∧ ∀ x ∈ s, x ≠ sep := by
  intro n
  induction n with
  | nil => intro p s h; simp [rsplitOnce] at h
  | cons c cs ih =>
    intro p s h
    simp only [rsplitOnce] at h
    split at h
    · rename_i pr hr
      have hps : (c :: pr.1, pr.2) = (p, s) := Option.some.inj h
      have hp : c :: pr.1 = p := congrArg Prod.fst hps
      have hs2 : pr.2 = s := congrArg Prod.snd hps
      obtain ⟨hcs, hnos⟩ := ih (show rsplitOnce sep cs = some (pr.1, pr.2) by rw [hr])
      constructor
      · rw [← hp, ← hs2, List.cons_append, ← hcs]
      · exact hs2 ▸ hnos
    · rename_i hr
      by_cases hc : c == sep
      · rw [if_pos hc] at h
        have hps : (([] : List Char), cs) = (p, s) := Option.some.inj h
        have hp : ([] : List Char) = p := congrArg Prod.fst hps
        have hs2 : cs = s := congrArg Prod.snd hps
        constructor
        · rw [← hp, ← hs2, List.nil_append, eq_of_beq hc]
        · exact hs2 ▸ rsplitOnce_none hr
      · rw [if_neg hc] at h; simp at h

theorem afterLastColon_no_colon (n : List Char) (h : ∀ x ∈ n, x ≠ ':') :
    afterLastColon n = n := by
  rw [afterLastColon, takeWhile_all, List.reverse_reverse]
  intro c hc
  simpa using h c (List.mem_reverse.mp hc)

theorem afterLastColon_append (p s : List Char) (hs : ∀ x ∈ s, x ≠ ':') :
    afterLastColon (p ++ ':' :: s) = s := by
  rw [afterLastColon, List.reverse_append, List.reverse_cons]
  rw [List.append_assoc, takeWhile_append_all _ _ ?_]
  · rw [List.singleton_append, List.takeWhile_cons_of_neg (by simp)]
    simp
  · intro c hc
    simpa using hs c (List.mem_reverse.mp hc)

theorem shortnameOf_eq_afterLastColon (n : List Char) :
    shortnameOf n = afterLastColon n := by
  rw [shortnameOf]
  cases h : rsplitOnce ':' n with
  | none => exact (afterLastColon_no_colon n (rsplitOnce_none h)).symm
  | some pr =>
    obtain ⟨hn, hs⟩ := rsplitOnce_some (p := pr.1) (s := pr.2) (by rw [h])
    rw [hn, afterLastColon_append pr.1 pr.2 hs]

theorem benchmarkFromStr_shape {line : List Char} {b : Benchmark}
    (h : benchmarkFromStr line = some b) :
    ∃ caps n v, regexSearch line = some caps ∧ parse_commas caps.ns = some n ∧
      parse_commas caps.variance = some v ∧
      b = ⟨caps.name, shortnameOf caps.name, n, v, caps.throughput.bind parse_commas⟩ := by
  rw [benchmarkFromStr] at h
  split at h
  · simp at h
  · rename_i caps hs
    split at h
    · simp at h
    · rename_i n hn
      split at h
      · simp at h
      · rename_i v hv
        exact ⟨caps, n, v, hs, hn, hv, (Option.some.inj h).symm⟩

/-- Claim C2, counterexample: on the line `c2cexline` the captured name is
`a:b`; the code derives shortname `b` (split at the last single `:`), while
the specified rule (split at the last two-character `::`) would yield the
whole name `a:b`. -/
theorem c2_counterexample :
    (benchmarkFromStr c2cexline).map Benchmark.shortname ≠
      (benchmarkFromStr c2cexline).map (fun b => specShortname b.name) := by
  decide

/-- Claim C2 as amended: the shortname of every parsed benchmark is
everything after the last occurrence of the single character `:` in the
captured name (the whole name when it contains no `:`). -/
theorem c2_shortname_after_last_colon (line : List Char) :
    (benchmarkFromStr line).map Benchmark.shortname =
      (benchmarkFromStr line).map (fun b => afterLastColon b.name) := by
  cases h : benchmarkFromStr line with
  | none => rfl
  | some b =>
    obtain ⟨caps, n, v, -, -, -, hb⟩ := benchmarkFromStr_shape h
    subst hb
    simp [shortnameOf_eq_afterLastColon]

/-- Claim C8, counterexample: the line `c8cexline` parses to a benchmark
whose name is `x:` and whose shortname is the empty string, so the
shortname is not always non-empty. -/
theorem c8_counterexample :
    benchmarkFromStr c8cexline = some c8bench ∧ c8bench.shortname = [] := by
  exact ⟨by decide, rfl⟩

/-- Claim C8 as amended: the shortname of every parsed benchmark is a
suffix of, or equal to, its name (it can be empty when the name ends in
`:`). -/
theorem c8_shortname_suffix : ∀ (line : List Char) (b : Benchmark),
    benchmarkFromStr line = some b → List.IsSuffix b.shortname b.name := by
  intro line b h
  obtain ⟨caps, n, v, -, -, -, hb⟩ := benchmarkFromStr_shape h
  subst hb
  show List.IsSuffix (shortnameOf caps.name) caps.name
  rw [shortnameOf]
  cases h2 : rsplitOnce ':' caps.name with
  | none => exact List.suffix_refl _
  | some pr =>
    obtain ⟨hn, -⟩ := rsplitOnce_some (p := pr.1) (s := pr.2) (by rw [h2])
    exact ⟨pr.1 ++ [':'], by simp [hn]⟩

/-- Witness for the amended claim C8 at a concrete line. -/
theorem c8_witness :
    benchmarkFromStr c8cexline = some c8bench ∧
      List.IsSuffix c8bench.shortname c8bench.name :=
  ⟨by decide, c8_shortname_suffix c8cexline c8bench (by decide)⟩

/-! ### Soundness of the matcher: a successful run yields a decomposition -/

theorem matchFromBench_sound {nm l : List Char} {caps : Caps}
    (h : matchFromBench nm l = some caps) :
    ∃ w4 w5 w6 w7 tail,
      l = benchLit ++ w4 ++ caps.ns ++ w5 ++ nsIterLit ++ w6 ++ openLit ++ w7 ++
          caps.variance ++ closeLit ++ tail ∧
      WsRun w4 ∧ NumRun caps.ns ∧ WsRun w5 ∧ WsRun w6 ∧ WsRun w7 ∧
      NumRun caps.variance ∧ caps.name = nm := by
  rw [matchFromBench] at h
  split at h
  · simp at h
  rename_i r1 hb
  split at h
  · simp at h
  rename_i a2 r2 hw4
  split at h
  · simp at h
  rename_i nsCap r3 hns
  split at h
  · simp at h
  rename_i a4 r4 hw5
  split at h
  · simp at h
  rename_i r5 h5
  split at h
  · simp at h
  rename_i a6 r6 hw6
  split at h
  · simp at h
  rename_i r7 h7
  split at h
  · simp at h
  rename_i a8 r8 hw7
  split at h
  · simp at h
  rename_i varCap r9 hvr
  split at h
  · simp at h
  rename_i r10 h9
  obtain rfl := Option.some.inj h
  obtain ⟨e1, hne4, hall4, -⟩ := spanPlus_sound hw4
  obtain ⟨e2, hneNs, hallNs, -⟩ := spanPlus_sound hns
  obtain ⟨e3, hne5, hall5, -⟩ := spanPlus_sound hw5
  obtain ⟨e5, hne6, hall6, -⟩ := spanPlus_sound hw6
  obtain ⟨e7, hne7, hall7, -⟩ := spanPlus_sound hw7
  obtain ⟨e8, hneVr, hallVr, -⟩ := spanPlus_sound hvr
  refine ⟨a2, a4, a6, a8, r10, ?_, ⟨hne4, hall4⟩, ⟨hneNs, hallNs⟩, ⟨hne5, hall5⟩,
    ⟨hne6, hall6⟩, ⟨hne7, hall7⟩, ⟨hneVr, hallVr⟩, rfl⟩
  rw [lit_sound hb, e1, e2, e3, lit_sound h5, e5, lit_sound h7, e7, e8, lit_sound h9]
  simp [List.append_assoc]

theorem markerAt_sound {nm l : List Char} {caps : Caps}
    (h : markerAt nm l = some caps) :
    ∃ m1 m2 m3 w rest, l = m1 :: m2 :: m3 :: w :: rest ∧
      m1 ≠ '\n' ∧ m2 ≠ '\n' ∧ m3 ≠ '\n' ∧ isWs w = true ∧
      matchFromBench nm rest = some caps := by
  match l with
  | [] => simp [markerAt] at h
  | [c1] => simp [markerAt] at h
  | [c1, c2] => simp [markerAt] at h
  | [c1, c2, c3] => simp [markerAt] at h
  | c1 :: c2 :: c3 :: w :: rest =>
    rw [markerAt] at h
    by_cases hc : (c1 != '\n' && c2 != '\n' && c3 != '\n' && isWs w) = true
    · rw [if_pos hc] at h
      simp only [Bool.and_eq_true, bne_iff_ne] at hc
      exact ⟨c1, c2, c3, w, rest, rfl, hc.1.1.1, hc.1.1.2, hc.1.2, hc.2, h⟩
    · rw [if_neg hc] at h
      simp at h

theorem tryMarker_sound {nm : List Char} : ∀ {n : Nat} {l : List Char} {caps : Caps},
    tryMarker nm n l = some caps →
    ∃ j, 1 ≤ j ∧ j ≤ n ∧ markerAt nm (l.drop j) = some caps := by
  intro n
  induction n with
  | zero => intro l caps h; simp [tryMarker] at h
  | succ k ih =>
    intro l caps h
    rw [tryMarker] at h
    split at h
    · rename_i caps' hm
      exact ⟨k + 1, by omega, Nat.le_refl _, hm.trans h⟩
    · obtain ⟨j, h1, h2, h3⟩ := ih h
      exact ⟨j, h1, by omega, h3⟩

theorem matchAt_sound {l : List Char} {caps : Caps} (h : matchAt l = some caps) :
    ∃ w1 nm w2 rest, l = testLit ++ w1 ++ nm ++ w2 ++ rest ∧
      WsRun w1 ∧ TokenRun nm ∧ WsRun w2 ∧ markerAt nm rest = some caps := by
  rw [matchAt] at h
  split at h
  · simp at h
  rename_i r1 ht
  split at h
  · simp at h
  rename_i a1 r2 hw1
  split at h
  · simp at h
  rename_i nm r3 hnm
  obtain ⟨j, hj1, hj2, hmk⟩ := tryMarker_sound h
  obtain ⟨e1, hne1, hall1, -⟩ := spanPlus_sound hw1
  obtain ⟨e2, hneNm, hallNm, -⟩ := spanPlus_sound hnm
  have hjlen : j ≤ r3.length :=
    Nat.le_trans hj2 (takeWhile_length_le r3)
  refine ⟨a1, nm, r3.take j, r3.drop j, ?_, ⟨hne1, hall1⟩,
    ⟨hneNm, fun c hc => by simpa using hallNm c hc⟩,
    ⟨?_, all_take_of_le_takeWhile r3 j hj2⟩, hmk⟩
  · rw [lit_sound ht, e1, e2]
    simp [List.append_assoc]
  · have : (r3.take j).length = j := by
      rw [List.length_take]
      omega
    intro hn
    rw [hn] at this
    simp at this
    omega

theorem regexSearch_sound : ∀ {l : List Char} {caps : Caps},
    regexSearch l = some caps →
    ∃ pre rest, l = pre ++ rest ∧ matchAt rest = some caps := by
  intro l
  induction l with
  | nil => intro caps h; simp [regexSearch] at h
  | cons c t ih =>
    intro caps h
    rw [regexSearch] at h
    split at h
    · rename_i caps' hm
      exact ⟨[], c :: t, rfl, hm.trans h⟩
    · obtain ⟨pre, rest, heq, hm⟩ := ih h
      exact ⟨c :: pre, rest, by rw [List.cons_append, ← heq], hm⟩

/-! ### Completeness of the matcher: a decomposition forces a match -/

theorem matchFromBench_complete (nm tail : List Char) {w4 ns w5 w6 w7 vr : List Char}
    (h4 : WsRun w4) (hns : NumRun ns) (h5 : WsRun w5) (h6 : WsRun w6)
    (h7 : WsRun w7) (hvr : NumRun vr) :
    ∃ caps, matchFromBench nm
      (benchLit ++ (w4 ++ (ns ++ (w5 ++ (nsIterLit ++ (w6 ++ (openLit ++
        (w7 ++ (vr ++ (closeLit ++ tail)))))))))) = some caps := by
  obtain ⟨nsh, nst, rfl⟩ : ∃ h t, ns = h :: t := by
    cases ns with
    | nil => exact absurd rfl hns.1
    | cons a b => exact ⟨a, b, rfl⟩
  obtain ⟨w5h, w5t, rfl⟩ : ∃ h t, w5 = h :: t := by
    cases w5 with
    | nil => exact absurd rfl h5.1
    | cons a b => exact ⟨a, b, rfl⟩
  obtain ⟨vrh, vrt, rfl⟩ : ∃ h t, vr = h :: t := by
    cases vr with
    | nil => exact absurd rfl hvr.1
    | cons a b => exact ⟨a, b, rfl⟩
  have hnsh : numChar nsh = true := hns.2 nsh (List.mem_cons_self _ _)
  have hw5h : isWs w5h = true := h5.2 w5h (List.mem_cons_self _ _)
  have hvrh : numChar vrh = true := hvr.2 vrh (List.mem_cons_self _ _)
  have e1 := lit_self benchLit
    (w4 ++ (nsh :: nst ++ (w5h :: w5t ++ (nsIterLit ++ (w6 ++ (openLit ++
      (w7 ++ (vrh :: vrt ++ (closeLit ++ tail)))))))))
  have e2 : spanPlus isWs
      (w4 ++ (nsh :: (nst ++ (w5h :: w5t ++ (nsIterLit ++ (w6 ++ (openLit ++
        (w7 ++ (vrh :: vrt ++ (closeLit ++ tail)))))))))) =
      some (w4, nsh :: (nst ++ (w5h :: w5t ++ (nsIterLit ++ (w6 ++ (openLit ++
        (w7 ++ (vrh :: vrt ++ (closeLit ++ tail))))))))) :=
    spanPlus_complete _ h4.2 h4.1 (isWs_of_numChar hnsh)
  have e3 : spanPlus numChar
      ((nsh :: nst) ++ (w5h :: (w5t ++ (nsIterLit ++ (w6 ++ (openLit ++
        (w7 ++ (vrh :: vrt ++ (closeLit ++ tail))))))))) =
      some (nsh :: nst, w5h :: (w5t ++ (nsIterLit ++ (w6 ++ (openLit ++
        (w7 ++ (vrh :: vrt ++ (closeLit ++ tail)))))))) :=
    spanPlus_complete _ hns.2 hns.1 (numChar_of_isWs hw5h)
  have e4 : spanPlus isWs
      ((w5h :: w5t) ++ (nsIterLit ++ (w6 ++ (openLit ++
        (w7 ++ (vrh :: vrt ++ (closeLit ++ tail))))))) =
      some (w5h :: w5t, nsIterLit ++ (w6 ++ (openLit ++
        (w7 ++ (vrh :: vrt ++ (closeLit ++ tail)))))) := by
    have : nsIterLit ++ (w6 ++ (openLit ++ (w7 ++ (vrh :: vrt ++ (closeLit ++ tail)))))
        = 'n' :: ('s' :: '/' :: 'i' :: 't' :: 'e' :: 'r' :: [] ++ (w6 ++ (openLit ++
          (w7 ++ (vrh :: vrt ++ (closeLit ++ tail)))))) := by
      simp [nsIterLit]
    rw [this]
    exact spanPlus_complete _ h5.2 h5.1 (by decide)
  have e5 := lit_self nsIterLit
    (w6 ++ (openLit ++ (w7 ++ (vrh :: vrt ++ (closeLit ++ tail)))))
  have e6 : spanPlus isWs
      (w6 ++ (openLit ++ (w7 ++ (vrh :: vrt ++ (closeLit ++ tail))))) =
      some (w6, openLit ++ (w7 ++ (vrh :: vrt ++ (closeLit ++ tail)))) := by
    have : openLit ++ (w7 ++ (vrh :: vrt ++ (closeLit ++ tail)))
        = '(' :: ('+' :: '/' :: '-' :: [] ++ (w7 ++ (vrh :: vrt ++ (closeLit ++ tail)))) := by
      simp [openLit]
    rw [this]
    exact spanPlus_complete _ h6.2 h6.1 (by decide)
  have e7 := lit_self openLit (w7 ++ (vrh :: vrt ++ (closeLit ++ tail)))
  have e8 : spanPlus isWs (w7 ++ ((vrh :: vrt) ++ (closeLit ++ tail))) =
      some (w7, (vrh :: vrt) ++ (closeLit ++ tail)) := by
    have : (vrh :: vrt) ++ (closeLit ++ tail) = vrh :: (vrt ++ (closeLit ++ tail)) := by
      simp
    rw [this]
    exact spanPlus_complete _ h7.2 h7.1 (isWs_of_numChar hvrh)
  have e9 : spanPlus numChar ((vrh :: vrt) ++ (')' :: tail)) =
      some (vrh :: vrt, ')' :: tail) :=
    spanPlus_complete _ hvr.2 hvr.1 (by decide)
  have e10 : lit closeLit (')' :: tail) = some tail := by
    have : closeLit = [')'] := by decide
    simp [this, lit]
  have hclose : closeLit ++ tail = ')' :: tail := by
    have : closeLit = [')'] := by decide
    simp [this]
  refine ⟨⟨nm, nsh :: nst, vrh :: vrt, matchThroughputGroup tail⟩, ?_⟩
  rw [matchFromBench]
  simp only [hclose, List.cons_append, List.append_assoc] at e1 e2 e3 e4 e5 e6 e7 e8 e9 ⊢
  simp only [e1, e2, e3, e4, e5, e6, e7, e8, e9, e10]

theorem markerAt_eq {nm : List Char} {m1 m2 m3 w3 : Char} (rest : List Char)
    (h1 : m1 ≠ '\n') (h2 : m2 ≠ '\n') (h3 : m3 ≠ '\n') (hw : isWs w3 = true) :
    markerAt nm (m1 :: m2 :: m3 :: w3 :: rest) = matchFromBench nm rest := by
  rw [markerAt, if_pos]
  simp [Bool.and_eq_true, bne_iff_ne, h1, h2, h3, hw]

theorem tryMarker_complete {nm : List Char} : ∀ {n j : Nat} {l : List Char} {caps : Caps},
    1 ≤ j → j ≤ n → markerAt nm (l.drop j) = some caps →
    ∃ caps', tryMarker nm n l = some caps' := by
  intro n
  induction n with
  | zero => intro j l caps h1 h2 _; omega
  | succ k ih =>
    intro j l caps h1 h2 h3
    rw [tryMarker]
    cases hm : markerAt nm (l.drop (k + 1)) with
    | some c => exact ⟨c, by simp [hm]⟩
    | none =>
      have hj : j ≤ k := by
        by_cases he : j = k + 1
        · rw [he] at h3
          rw [hm] at h3
          exact Option.noConfusion h3
        · omega
      obtain ⟨c', hc⟩ := ih h1 hj h3
      exact ⟨c', by simp [hm, hc]⟩

theorem matchAt_complete {w1 nm w2 : List Char} (rest : List Char)
    (h1 : WsRun w1) (hnm : TokenRun nm) (h2 : WsRun w2) {caps : Caps}
    (hm : markerAt nm rest = some caps) :
    ∃ caps', matchAt (testLit ++ (w1 ++ (nm ++ (w2 ++ rest)))) = some caps' := by
  obtain ⟨nmh, nmt, rfl⟩ : ∃ h t, nm = h :: t := by
    cases nm with
    | nil => exact absurd rfl hnm.1
    | cons a b => exact ⟨a, b, rfl⟩
  obtain ⟨w2h, w2t, rfl⟩ : ∃ h t, w2 = h :: t := by
    cases w2 with
    | nil => exact absurd rfl h2.1
    | cons a b => exact ⟨a, b, rfl⟩
  have hnmh : isWs nmh = false := hnm.2 nmh (List.mem_cons_self _ _)
  have hw2h : isWs w2h = true := h2.2 w2h (List.mem_cons_self _ _)
  have e1 := lit_self testLit (w1 ++ ((nmh :: nmt) ++ ((w2h :: w2t) ++ rest)))
  have e2 : spanPlus isWs (w1 ++ (nmh :: (nmt ++ ((w2h :: w2t) ++ rest)))) =
      some (w1, nmh :: (nmt ++ ((w2h :: w2t) ++ rest))) :=
    spanPlus_complete _ h1.2 h1.1 hnmh
  have e3 : spanPlus (fun c => !isWs c) ((nmh :: nmt) ++ (w2h :: (w2t ++ rest))) =
      some (nmh :: nmt, w2h :: (w2t ++ rest)) :=
    spanPlus_complete _ (fun x hx => by simp [hnm.2 x hx]) hnm.1 (by simp [hw2h])
  have hdrop : ((w2h :: w2t) ++ rest).drop (w2h :: w2t).length = rest :=
    List.drop_left _ _
  have hlen : (w2h :: w2t).length ≤
      (((w2h :: w2t) ++ rest).takeWhile isWs).length :=
    length_le_takeWhile_append _ _ h2.2
  have h3 : markerAt (nmh :: nmt)
      (((w2h :: w2t) ++ rest).drop (w2h :: w2t).length) = some caps := by
    rw [hdrop]; exact hm
  obtain ⟨caps', hc⟩ := tryMarker_complete (Nat.succ_le_succ (Nat.zero_le _)) hlen h3
  refine ⟨caps', ?_⟩
  rw [matchAt]
  simp only [List.cons_append, List.append_assoc] at e1 e2 e3 hc ⊢
  simp only [e1, e2, e3]
  exact hc

theorem regexSearch_complete : ∀ (pre : List Char) {rest : List Char} {caps : Caps},
    matchAt rest = some caps → (regexSearch (pre ++ rest)).isSome = true := by
  intro pre
  induction pre with
  | nil =>
    intro rest caps h
    rw [List.nil_append]
    cases rest with
    | nil =>
      have h0 : matchAt ([] : List Char) = none := by decide
      rw [h0] at h
      exact Option.noConfusion h
    | cons c t =>
      rw [regexSearch]
      simp [h]
  | cons c pt ih =>
    intro rest caps h
    rw [List.cons_append, regexSearch]
    cases hm : matchAt (c :: (pt ++ rest)) with
    | some c' => simp
    | none => simpa using ih h

/-! ### Claim C1: the line grammar -/

/-- Claim C1, counterexample: the line `test a zzz bench: 1 ns/iter (+∕- 2)`
contains no `.` at all — in particular no literal `...` marker — yet the
pattern matches it, because the `...` of the pattern are three wildcards.
So the grammar of the specification does not coincide with the code's. -/
theorem c1_counterexample :
    (regexSearch c1cexline).isSome = true ∧ ¬ specLineGrammar c1cexline := by
  refine ⟨by decide, ?_⟩
  rintro ⟨pre, w1, nm, w2, w3, w4, ns, w5, w6, w7, vr, w8, tail, heq, -⟩
  have hdot : ('.' : Char) ∈ c1cexline := by
    rw [heq]
    have hd : ('.' : Char) ∈ dotsLit := by decide
    simp only [List.mem_append]
    tauto
  exact absurd hdot (by decide)

/-- Claim C1 as amended: a line matches the pattern exactly when it
contains, in order: literal `test`, whitespace, a nonempty run of
non-whitespace characters (the name), whitespace, any three characters
other than a line feed (not necessarily dots), exactly one whitespace
character, literal `bench:`, whitespace, a run of digits and commas,
whitespace, literal `ns/iter`, whitespace, literal `(+∕-`, whitespace, a
run of digits and commas, then immediately `)`; arbitrary text may precede
and follow, and the optional throughput clause does not affect whether a
line matches. -/
theorem c1_line_grammar : ∀ l : List Char,
    (regexSearch l).isSome = true ↔ amendedLineGrammar l := by
  intro l
  constructor
  · intro h
    obtain ⟨caps, hcaps⟩ := Option.isSome_iff_exists.mp h
    obtain ⟨pre, rest0, hl, hm⟩ := regexSearch_sound hcaps
    obtain ⟨w1, nm, w2, rest1, h0, hw1, hnm, hw2, hmk⟩ := matchAt_sound hm
    obtain ⟨m1, m2, m3, w3, rest2, h1, hm1, hm2, hm3, hw3, hfb⟩ := markerAt_sound hmk
    obtain ⟨w4, w5, w6, w7, tail, h2b, h4, hns, h5, h6, h7, hvr, -⟩ :=
      matchFromBench_sound hfb
    refine ⟨pre, w1, nm, w2, m1, m2, m3, w3, w4, caps.ns, w5, w6, w7, caps.variance,
      tail, ?_, hw1, hnm, hw2, hm1, hm2, hm3, hw3, h4, hns, h5, h6, h7, hvr⟩
    rw [hl, h0, h1, h2b]
    simp [List.append_assoc]
  · rintro ⟨pre, w1, nm, w2, m1, m2, m3, w3, w4, ns, w5, w6, w7, vr, tail, heq,
      hw1, hnm, hw2, hm1, hm2, hm3, hw3, h4, hns, h5, h6, h7, hvr⟩
    obtain ⟨caps, hfb⟩ := matchFromBench_complete nm tail h4 hns h5 h6 h7 hvr
    have hmk : markerAt nm (m1 :: m2 :: m3 :: w3 :: (benchLit ++ (w4 ++ (ns ++ (w5 ++
        (nsIterLit ++ (w6 ++ (openLit ++ (w7 ++ (vr ++ (closeLit ++ tail))))))))))) =
        some caps := by
      rw [markerAt_eq _ hm1 hm2 hm3 hw3]
      exact hfb
    obtain ⟨caps', hma⟩ := matchAt_complete _ hw1 hnm hw2 hmk
    have hL : l = pre ++ (testLit ++ (w1 ++ (nm ++ (w2 ++ (m1 :: m2 :: m3 :: w3 ::
        (benchLit ++ (w4 ++ (ns ++ (w5 ++ (nsIterLit ++ (w6 ++ (openLit ++ (w7 ++
          (vr ++ (closeLit ++ tail))))))))))))))) := by
      rw [heq]
      simp [List.append_assoc]
    rw [hL]
    exact regexSearch_complete pre hma

/-- Witness for the amended claim C1: a concrete matching line satisfies
the declarative grammar. -/
theorem c1_witness : amendedLineGrammar c1wline :=
  (c1_line_grammar c1wline).mp (by decide)

/-! ### Claims C3, C6 and C7: numeric extraction -/

theorem regexSearch_numRuns {l : List Char} {caps : Caps}
    (h : regexSearch l = some caps) :
    NumRun caps.ns ∧ NumRun caps.variance := by
  obtain ⟨pre, rest0, -, hm⟩ := regexSearch_sound h
  obtain ⟨w1, nm, w2, rest1, -, -, -, -, hmk⟩ := matchAt_sound hm
  obtain ⟨m1, m2, m3, w3, rest2, -, -, -, -, -, hfb⟩ := markerAt_sound hmk
  obtain ⟨w4, w5, w6, w7, tail, -, -, hns, -, -, -, hvr, -⟩ := matchFromBench_sound hfb
  exact ⟨hns, hvr⟩

theorem drop_commas_digits {s : List Char} (h : ∀ c ∈ s, numChar c = true) :
    ∀ c ∈ drop_commas s, c.isDigit = true := by
  intro c hc
  rw [drop_commas] at hc
  obtain ⟨hmem, hne⟩ := List.mem_filter.mp hc
  exact isDigit_of_numChar_ne_comma (h c hmem) (by simpa using hne)

theorem parse_commas_val {s : List Char} {n : Nat} (hall : ∀ c ∈ s, numChar c = true)
    (h : parse_commas s = some n) : n = digitsVal (drop_commas s) :=
  u64FromStr_eq_digitsVal (drop_commas_digits hall) h

/-- Claim C3: whenever a matching line parses, the `ns` and `variance`
fields are exactly the base-10 value of the corresponding capture with all
comma characters removed, comma removal being the order-preserving filter
`drop_commas`. -/
theorem c3_exact_values (line : List Char) (caps : Caps) (n v : Nat)
    (h : regexSearch line = some caps)
    (hn : parse_commas caps.ns = some n)
    (hv : parse_commas caps.variance = some v) :
    (benchmarkFromStr line).map Benchmark.ns = some n ∧
    (benchmarkFromStr line).map Benchmark.variance = some v ∧
    n = digitsVal (drop_commas caps.ns) ∧
    v = digitsVal (drop_commas caps.variance) := by
  obtain ⟨hns, hvr⟩ := regexSearch_numRuns h
  have hb : benchmarkFromStr line =
      some ⟨caps.name, shortnameOf caps.name, n, v, caps.throughput.bind parse_commas⟩ := by
    rw [benchmarkFromStr]
    simp only [h, hn, hv]
  exact ⟨by rw [hb]; rfl, by rw [hb]; rfl, parse_commas_val hns.2 hn,
    parse_commas_val hvr.2 hv⟩

/-- Witness for claim C3 at a line whose captures contain commas. -/
theorem c3_witness :
    (regexSearch c3wline = some c3wcaps ∧ parse_commas c3wcaps.ns = some 12 ∧
      parse_commas c3wcaps.variance = some 34) ∧
    ((benchmarkFromStr c3wline).map Benchmark.ns = some 12 ∧
      (benchmarkFromStr c3wline).map Benchmark.variance = some 34 ∧
      12 = digitsVal (drop_commas c3wcaps.ns) ∧
      34 = digitsVal (drop_commas c3wcaps.variance)) :=
  ⟨⟨by decide, by decide, by decide⟩,
    c3_exact_values c3wline c3wcaps 12 34 (by decide) (by decide) (by decide)⟩

/-- Claim C6: when the `ns` or `variance` capture of a matching line fails
to parse (overflow of the 64-bit range, or nothing left after dropping the
commas), the whole line is discarded: `benchmarkFromStr` returns `none`
instead of propagating an error. -/
theorem c6_core_numeric_failure (line : List Char) (caps : Caps)
    (h : regexSearch line = some caps)
    (hfail : parse_commas caps.ns = none ∨ parse_commas caps.variance = none) :
    benchmarkFromStr line = none := by
  rw [benchmarkFromStr]
  rcases hfail with hn | hv
  · simp only [h, hn]
  · cases hn : parse_commas caps.ns with
    | none => simp only [h, hn]
    | some n => simp only [h, hn, hv]

/-- Witness for claim C6: a 20-digit `ns` capture overflows `u64` and the
line is discarded. -/
theorem c6_witness :
    (regexSearch c6wline = some c6wcaps ∧ parse_commas c6wcaps.ns = none) ∧
    benchmarkFromStr c6wline = none :=
  ⟨⟨by decide, by decide⟩,
    c6_core_numeric_failure c6wline c6wcaps (by decide) (Or.inl (by decide))⟩

/-- Claim C7: on a matching line whose core numerics parse, the record is
produced with `name`, `ns` and `variance` intact and with
`throughput = capture.bind parse_commas`; hence an absent throughput
capture yields an absent field, an unparseable one degrades only that
field to absent, and a parseable one is stored as parsed. -/
theorem c7_throughput_degrades (line : List Char) (caps : Caps) (n v : Nat)
    (h : regexSearch line = some caps)
    (hn : parse_commas caps.ns = some n)
    (hv : parse_commas caps.variance = some v) :
    (benchmarkFromStr line).map Benchmark.throughput =
      some (caps.throughput.bind parse_commas) ∧
    (benchmarkFromStr line).map Benchmark.name = some caps.name ∧
    (benchmarkFromStr line).map Benchmark.ns = some n ∧
    (benchmarkFromStr line).map Benchmark.variance = some v := by
  have hb : benchmarkFromStr line =
      some ⟨caps.name, shortnameOf caps.name, n, v, caps.throughput.bind parse_commas⟩ := by
    rw [benchmarkFromStr]
    simp only [h, hn, hv]
  exact ⟨by rw [hb]; rfl, by rw [hb]; rfl, by rw [hb]; rfl, by rw [hb]; rfl⟩

/-- Witness for claim C7: a present but unparseable throughput capture
degrades only the throughput field; the record survives. -/
theorem c7_witness :
    (regexSearch c7wline = some c7wcaps ∧ parse_commas c7wcaps.ns = some 1 ∧
      parse_commas c7wcaps.variance = some 2) ∧
    ((benchmarkFromStr c7wline).map Benchmark.throughput =
        some (c7wcaps.throughput.bind parse_commas) ∧
      (benchmarkFromStr c7wline).map Benchmark.name = some c7wcaps.name ∧
      (benchmarkFromStr c7wline).map Benchmark.ns = some 1 ∧
      (benchmarkFromStr c7wline).map Benchmark.variance = some 2) :=
  ⟨⟨by decide, by decide, by decide⟩,
    c7_throughput_degrades c7wline c7wcaps 1 2 (by decide) (by decide) (by decide)⟩

end BenchParser
